import Mathlib

/-!
Formal model of the audio conditioning pipeline implemented in `audio.py`
and `audio_advanced.py`: the per-block signal conditioner (normalization,
linear filtering, noise gate, gain and hard clip), filter design, spectral
subtraction, and the recording accumulator of the streaming path.

Time-domain arithmetic is modelled exactly over `ℚ` (the float operations
of the source are all field operations); the spectral path is modelled
over `ℝ` and `ℂ` with the ideal discrete Fourier transform, and the
`scipy`/`numpy` library functions called by the source are modelled by
their documented behaviour (validation, output shape, and the standard
windowed-sinc respectively Butterworth construction).
-/

/- ### Time-domain per-block pipeline (exact model over ℚ) -/

/-- Hard clip of one value to the interval `[-1, 1]`, as in
`np.clip(_, -1.0, 1.0)`. -/
def clipSample (v : ℚ) : ℚ := min 1 (max (-1) v)

/-- Model of `amplify` from `audio.py`:
`np.clip(audio * gain, -1.0, 1.0)`. -/
def amplify (audio : List ℚ) (gain : ℚ) : List ℚ :=
  audio.map (fun x => clipSample (x * gain))

/-- Model of `np.max(np.abs(audio))` for a block (0 for the empty block,
where numpy would raise instead; never relevant for device blocks). -/
def maxAbs (audio : List ℚ) : ℚ :=
  (audio.map (fun x => |x|)).foldr max 0

/-- Model of `normalize_audio` from `audio_advanced.py`:
`audio / (np.max(np.abs(audio)) + 1e-6)`. -/
def normalize_audio (audio : List ℚ) : List ℚ :=
  audio.map (fun x => x / (maxAbs audio + 1 / 1000000))

/-- Model of `noise_gate` from `audio_advanced.py`:
`np.where(np.abs(signal) < threshold, 0, signal)`. -/
def noise_gate (signal : List ℚ) (threshold : ℚ) : List ℚ :=
  signal.map (fun s => if |s| < threshold then 0 else s)

/-- The first `n` outputs of the causal direct-form difference equation
computed by `scipy.signal.lfilter` with zero initial state:
`a0 * y t = b0 * x t + b1 * x (t-1) + ... - a1 * y (t-1) - ...`. -/
def lfilterPrefix (b a x : List ℚ) : ℕ → List ℚ
  | 0 => []
  | n + 1 =>
    let ys := lfilterPrefix b a x n
    ys ++ [(∑ i ∈ Finset.range (min (n + 1) b.length), b.getD i 0 * x.getD (n - i) 0
        - ∑ j ∈ Finset.range (min n (a.length - 1)), a.getD (j + 1) 0 * ys.getD (n - (j + 1)) 0)
        / a.getD 0 0]

/-- Model of `scipy.signal.lfilter b a x` (zero initial conditions). -/
def lfilter (b a x : List ℚ) : List ℚ := lfilterPrefix b a x x.length

/-- Model of `process_audio` from `audio_advanced.py`, the per-block
SignalConditioner transform: normalize, linear filter, optionally the
noise gate at its default threshold `0.015`, then gain and hard clip. -/
def process_audio (audio b a : List ℚ) (gain : ℚ) (use_gate : Bool) : List ℚ :=
  let audio1 := normalize_audio audio
  let filtered := lfilter b a audio1
  let filtered1 := if use_gate then noise_gate filtered (15 / 1000) else filtered
  filtered1.map (fun x => clipSample (x * gain))

/-- The stage order stated by the specification for the noise gate:
normalize, then gate, then linear filter, then gain and clip.  Used only
for comparison with the implemented order of `process_audio`. -/
def process_audio_spec_order (audio b a : List ℚ) (gain : ℚ) (use_gate : Bool) : List ℚ :=
  let audio1 := normalize_audio audio
  let gated := if use_gate then noise_gate audio1 (15 / 1000) else audio1
  let filtered := lfilter b a gated
  filtered.map (fun x => clipSample (x * gain))

/- ### Recording accumulator and stop path of `stream_thread` -/

/-- Model of `self.recorded_audio.append(audio_out.copy())` in
`audio_callback`. -/
def recordAppend (acc : List (List ℚ)) (block : List ℚ) : List (List ℚ) :=
  acc ++ [block]

/-- Model of `np.concatenate` applied to the list of recorded blocks:
raises `ValueError` on an empty list, otherwise concatenates the blocks
in order. -/
def concatenateBlocks (blocks : List (List ℚ)) : Except String (List ℚ) :=
  if blocks.isEmpty then Except.error "need at least one array to concatenate"
  else Except.ok blocks.flatten

/-- Model of the end of `stream_thread` in `audio_advanced.py`: when the
record flag is set, the recorded blocks are concatenated and written to
the artifact file; otherwise no artifact is produced. -/
def stopFlush (record : Bool) (recorded : List (List ℚ)) :
    Except String (Option (List ℚ)) :=
  if record then (concatenateBlocks recorded).map Option.some
  else Except.ok none

/- ### Filter design: firwin and butter models, design entry points -/

/-- Normalized sinc `sin (pi t) / (pi t)` (value 1 at `t = 0`), as used by
the windowed FIR design. -/
noncomputable def sinc (t : ℝ) : ℝ :=
  if t = 0 then 1 else Real.sin (Real.pi * t) / (Real.pi * t)

/-- One Hamming-windowed sinc coefficient of `scipy.signal.firwin`
(before passband scaling) at index `j` of `numtaps`, for normalized
cutoff `c` (as a fraction of Nyquist); `pz = true` is the low-pass band
`[0, c]`, `pz = false` the high-pass band `[c, 1]`. -/
noncomputable def firwinUnscaled (numtaps : ℕ) (c : ℝ) (pz : Bool) (j : ℕ) : ℝ :=
  let m : ℝ := (j : ℝ) - ((numtaps : ℝ) - 1) / 2
  let w : ℝ := 0.54 - 0.46 * Real.cos (2 * Real.pi * (j : ℝ) / ((numtaps : ℝ) - 1))
  w * (if pz then c * sinc (c * m) else sinc m - c * sinc (c * m))

/-- The frequency-response sum `firwin` scales by: the response at
frequency 0 for a low-pass design, at Nyquist for a high-pass design. -/
noncomputable def firwinScale (numtaps : ℕ) (c : ℝ) (pz : Bool) : ℝ :=
  ∑ j ∈ Finset.range numtaps,
    firwinUnscaled numtaps c pz j *
      Real.cos (Real.pi * ((j : ℝ) - ((numtaps : ℝ) - 1) / 2) * (if pz then 0 else 1))

/-- The `numtaps` scaled taps produced by a successful `firwin` call. -/
noncomputable def firwinTaps (numtaps : ℕ) (cutoff fs : ℚ) (pz : Bool) : List ℝ :=
  (List.range numtaps).map (fun j =>
    firwinUnscaled numtaps ((cutoff : ℝ) / ((fs : ℝ) / 2)) pz j
      / firwinScale numtaps ((cutoff : ℝ) / ((fs : ℝ) / 2)) pz)

/-- Model of `scipy.signal.firwin numtaps cutoff fs pass_zero`: raises
`ValueError` for a cutoff outside the open interval `(0, fs/2)`, raises
for a high-pass design with an even tap count, and otherwise returns the
`numtaps` windowed-sinc taps. -/
noncomputable def firwin (numtaps : ℕ) (cutoff fs : ℚ) (pz : Bool) :
    Except String (List ℝ) :=
  if cutoff ≤ 0 ∨ fs / 2 ≤ cutoff then
    Except.error "Invalid cutoff frequency"
  else if pz = false ∧ numtaps % 2 = 0 then
    Except.error "A filter with an even number of coefficients must have zero response at the Nyquist frequency"
  else
    Except.ok (firwinTaps numtaps cutoff fs pz)

/-- Multiply a polynomial, given by its coefficients in descending powers,
by the linear factor `X - r`. -/
def polyMulLin (r : ℂ) (p : List ℂ) : List ℂ :=
  List.zipWith (fun hi lo => hi - lo) (p ++ [0]) (0 :: p.map (fun c => r * c))

/-- Coefficients (descending powers, leading coefficient 1) of the monic
polynomial with the given roots, as computed by `numpy.poly`. -/
def polyFromRoots (roots : List ℂ) : List ℂ :=
  roots.foldl (fun p r => polyMulLin r p) [1]

/-- The analog Butterworth prototype poles of order `N`. -/
noncomputable def butterPoles (N : ℕ) : List ℂ :=
  (List.range N).map (fun k : ℕ =>
    Complex.exp (Complex.I * (Real.pi : ℂ) * (2 * (k : ℂ) + (N : ℂ) + 1) / (2 * (N : ℂ))))

/-- The bilinear transform of an analog root at sampling rate `fs`:
`s` maps to `(2 fs + s) / (2 fs - s)`. -/
noncomputable def bilinear (fs : ℚ) (s : ℂ) : ℂ :=
  (2 * (fs : ℂ) + s) / (2 * (fs : ℂ) - s)

/-- A complex square root (principal branch). -/
noncomputable def csqrt (z : ℂ) : ℂ := z ^ ((1 : ℂ) / 2)

/-- The pre-warped analog cutoff `2 fs tan (pi w / fs)` used by the
digital Butterworth design before the bilinear transform. -/
noncomputable def warpFreq (fs w : ℚ) : ℝ :=
  2 * (fs : ℝ) * Real.tan (Real.pi * (w : ℝ) / (fs : ℝ))

/-- The digital transfer-function realization (numerator, denominator) of
the order-`N` Butterworth design for the requested band, through the
standard prototype-pole, band-transform and bilinear-transform
construction.  The theorems below rely on the validation, the output
shape and the fixed order; the coefficient values record the standard
construction. -/
noncomputable def butterCoeffs (N : ℕ) (Wn : List ℚ) (fs : ℚ) (btype : String) :
    List ℝ × List ℝ :=
  if btype = "band" then
    let w1 := warpFreq fs (Wn.getD 0 0)
    let w2 := warpFreq fs (Wn.getD 1 0)
    let bw : ℂ := ((w2 - w1 : ℝ) : ℂ)
    let wo2 : ℂ := ((w1 * w2 : ℝ) : ℂ)
    let aPoles := (butterPoles N).map (fun p => bw * p / 2 + csqrt ((bw * p / 2) ^ 2 - wo2))
      ++ (butterPoles N).map (fun p => bw * p / 2 - csqrt ((bw * p / 2) ^ 2 - wo2))
    let dPoles := aPoles.map (bilinear fs)
    let dZeros := List.replicate N (1 : ℂ) ++ List.replicate N (-1 : ℂ)
    let gain : ℂ := bw ^ N * (2 * (fs : ℂ)) ^ N / (aPoles.map (fun p => 2 * (fs : ℂ) - p)).prod
    ((polyFromRoots dZeros).map (fun c => (gain * c).re),
      (polyFromRoots dPoles).map Complex.re)
  else if btype = "high" then
    let w := warpFreq fs (Wn.getD 0 0)
    let aPoles := (butterPoles N).map (fun p => ((w : ℝ) : ℂ) / p)
    let dPoles := aPoles.map (bilinear fs)
    let dZeros := List.replicate N (1 : ℂ)
    let gain : ℂ := (2 * (fs : ℂ)) ^ N / (aPoles.map (fun p => 2 * (fs : ℂ) - p)).prod
    ((polyFromRoots dZeros).map (fun c => (gain * c).re),
      (polyFromRoots dPoles).map Complex.re)
  else
    let w := warpFreq fs (Wn.getD 0 0)
    let aPoles := (butterPoles N).map (fun p => ((w : ℝ) : ℂ) * p)
    let dPoles := aPoles.map (bilinear fs)
    let dZeros := List.replicate N (-1 : ℂ)
    let gain : ℂ := ((w : ℝ) : ℂ) ^ N / (aPoles.map (fun p => 2 * (fs : ℂ) - p)).prod
    ((polyFromRoots dZeros).map (fun c => (gain * c).re),
      (polyFromRoots dPoles).map Complex.re)

/-- Model of `scipy.signal.butter N Wn fs btype` for a digital design:
validates the band type, validates that every critical frequency lies
strictly inside `(0, fs/2)` (`ValueError` otherwise, never clamping),
validates the number of band edges, and returns the realized transfer
function. -/
noncomputable def butter (N : ℕ) (Wn : List ℚ) (fs : ℚ) (btype : String) :
    Except String (List ℝ × List ℝ) :=
  if ¬ (btype = "low" ∨ btype = "high" ∨ btype = "band") then
    Except.error "btype must be one of lowpass, highpass, bandpass"
  else if ¬ (∀ w ∈ Wn, 0 < w ∧ w < fs / 2) then
    Except.error "Digital filter critical frequencies must be 0 < Wn < fs/2"
  else if btype = "band" ∧ Wn.length ≠ 2 then
    Except.error "Wn must specify start and stop frequencies for bandpass filter"
  else if ¬ btype = "band" ∧ Wn.length ≠ 1 then
    Except.error "Must specify a single critical frequency Wn for lowpass or highpass filter"
  else
    Except.ok (butterCoeffs N Wn fs btype)

/-- Model of `design_filter` from `audio.py`: FIR through
`firwin order cutoff fs` with `pass_zero` exactly for the low-pass type
(and no denominator), IIR through `butter` with the fixed order `N = 6`,
ignoring the `order` parameter. -/
noncomputable def design_filter (filter_type : String) (cutoff fs : ℚ) (order : ℕ)
    (use_fir : Bool) : Except String (List ℝ × Option (List ℝ)) :=
  if use_fir then
    match firwin order cutoff fs (filter_type == "low") with
    | Except.error e => Except.error e
    | Except.ok taps => Except.ok (taps, none)
  else
    match butter 6 [cutoff] fs filter_type with
    | Except.error e => Except.error e
    | Except.ok ba => Except.ok (ba.1, some ba.2)

/-- Model of `design_iir_filter` from `audio_advanced.py`: a direct call
of `butter` with the fixed order `N = 6`. -/
noncomputable def design_iir_filter (filter_type : String) (cutoff : List ℚ) (fs : ℚ) :
    Except String (List ℝ × List ℝ) :=
  butter 6 cutoff fs filter_type

/- ### Spectral subtraction: rfft / irfft model over ℝ and ℂ -/

/-- The unit complex exponential `exp (2 pi i d / N)` of the discrete
Fourier transform. -/
noncomputable def unitExp (N : ℕ) (d : ℤ) : ℂ :=
  Complex.exp (2 * (Real.pi : ℂ) * Complex.I * (d : ℂ) / (N : ℂ))

/-- Bin `k` of `np.fft.rfft` on a real block:
`X k` is the sum over `j` of `x j * exp (-2 pi i j k / n)`. -/
noncomputable def rfftCoeff (x : List ℝ) (k : ℕ) : ℂ :=
  ∑ j ∈ Finset.range x.length,
    ((x.getD j 0 : ℝ) : ℂ) * unitExp x.length (-((j : ℤ) * (k : ℤ)))

/-- Model of `np.fft.rfft`: the `n / 2 + 1` nonnegative-frequency bins. -/
noncomputable def rfft (x : List ℝ) : List ℂ :=
  (List.range (x.length / 2 + 1)).map (rfftCoeff x)

/-- Model of `np.fft.irfft` at its default output length `2 * (m - 1)`
for `m` input bins: the real inverse transform of the Hermitian extension
of the bins (the imaginary parts of bin 0 and of the Nyquist bin are
discarded, as in the C2R transform).  For a single input bin numpy
raises (the default output length would be 0); the model totalizes that
degenerate case to the empty list, and no theorem below relies on the
behaviour at it. -/
noncomputable def irfft (y : List ℂ) : List ℝ :=
  (List.range (2 * (y.length - 1))).map (fun j : ℕ =>
    ((y.getD 0 0).re + (-1 : ℝ) ^ j * (y.getD (y.length - 1) 0).re
        + ∑ k ∈ Finset.Ico 1 (y.length - 1),
            2 * (y.getD k 0 * unitExp (2 * (y.length - 1)) ((k : ℤ) * (j : ℤ))).re)
      / ((2 * (y.length - 1) : ℕ) : ℝ))

/-- Model of `spectral_subtraction` from `audio_advanced.py`: transform
block and noise estimate, subtract the noise magnitude from the signal
magnitude, floor at 0, recombine with the original phase, inverse
transform. -/
noncomputable def spectral_subtraction (audio noise_estimate : List ℝ) : List ℝ :=
  let spectrum := rfft audio
  let noise_spectrum := rfft noise_estimate
  let magnitude := spectrum.map (fun z => Complex.abs z)
  let phase := spectrum.map (fun z => Complex.arg z)
  let clean_magnitude :=
    List.zipWith (fun m w => max (m - Complex.abs w) 0) magnitude noise_spectrum
  irfft (List.zipWith (fun m p => ((m : ℝ) : ℂ) * Complex.exp (Complex.I * ((p : ℝ) : ℂ)))
    clean_magnitude phase)

/- ### Helper lemmas for the ℚ pipeline -/

theorem lfilterPrefix_length (b a x : List ℚ) : ∀ n, (lfilterPrefix b a x n).length = n
  | 0 => rfl
  | n + 1 => by
    simp [lfilterPrefix, lfilterPrefix_length b a x n]

theorem getD_replicate {α : Type _} (n i : ℕ) (v : α) :
    (List.replicate n v).getD i v = v := by
  induction n generalizing i with
  | zero => simp [List.getD]
  | succ n ih =>
    cases i with
    | zero => simp [List.replicate_succ]
    | succ i => simp [List.replicate_succ, ih]

theorem foldr_max_replicate_zero (n : ℕ) :
    (List.replicate n (0 : ℚ)).foldr max 0 = 0 := by
  induction n with
  | zero => rfl
  | succ n ih => simp [List.replicate_succ, ih]

theorem maxAbs_replicate_zero (n : ℕ) : maxAbs (List.replicate n 0) = 0 := by
  simp [maxAbs, List.map_replicate, foldr_max_replicate_zero]

theorem normalize_audio_replicate_zero (n : ℕ) :
    normalize_audio (List.replicate n 0) = List.replicate n 0 := by
  simp [normalize_audio, maxAbs_replicate_zero, List.map_replicate]

theorem lfilterPrefix_replicate_zero (b a : List ℚ) (n : ℕ) :
    ∀ k, lfilterPrefix b a (List.replicate n 0) k = List.replicate k 0
  | 0 => rfl
  | k + 1 => by
    rw [lfilterPrefix, lfilterPrefix_replicate_zero b a n k]
    have h1 : ∀ i ∈ Finset.range (min (k + 1) b.length),
        b.getD i 0 * (List.replicate n (0 : ℚ)).getD (k - i) 0 = 0 := by
      intro i _
      rw [getD_replicate]
      ring
    have h2 : ∀ j ∈ Finset.range (min k (a.length - 1)),
        a.getD (j + 1) 0 * (List.replicate k (0 : ℚ)).getD (k - (j + 1)) 0 = 0 := by
      intro j _
      rw [getD_replicate]
      ring
    rw [Finset.sum_eq_zero h1, Finset.sum_eq_zero h2]
    simp [List.replicate_succ']

theorem map_eq_replicate_zero (l : List ℚ) (f : ℚ → ℚ) (hf : ∀ x, f x = 0) :
    l.map f = List.replicate l.length 0 := by
  induction l with
  | nil => rfl
  | cons x l ih => simp [hf, List.replicate_succ, ih]

theorem clipSample_zero : clipSample 0 = 0 := by
  simp [clipSample]

/- ### C1, C2, C6, C9, C10 -/

/-- C1: every sample of a block returned by the SignalConditioner
transform `process_audio` lies in the closed interval `[-1, 1]`, for
every input block, every gain, every pair of filter coefficient lists,
with or without the noise gate. -/
theorem process_audio_mem_clipped (audio b a : List ℚ) (gain : ℚ) (ug : Bool)
    (x : ℚ) (hx : x ∈ process_audio audio b a gain ug) : -1 ≤ x ∧ x ≤ 1 := by
  unfold process_audio at hx
  simp only [List.mem_map] at hx
  obtain ⟨y, -, rfl⟩ := hx
  unfold clipSample
  constructor
  · exact le_min (by norm_num) (le_max_left _ _)
  · exact min_le_left _ _

/-- Concrete check for C1: processing the block `[2]` with trivial
coefficients and gain 3 produces the sample 1, which lies in `[-1, 1]`. -/
theorem process_audio_mem_clipped_check : -1 ≤ (1 : ℚ) ∧ (1 : ℚ) ≤ 1 := by
  refine process_audio_mem_clipped [2] [1] [1] 3 false 1 ?_
  have h : process_audio [2] [1] [1] 3 false = [1] := by
    norm_num [process_audio, normalize_audio, maxAbs, lfilter, lfilterPrefix,
      clipSample, Finset.sum_range_succ]
  rw [h]
  exact List.mem_singleton.mpr rfl

/-- C2 counterexample: on the one-sample block `[1]` with the attenuating
filter `b = [1/100]`, `a = [1]`, gain 1 and the gate enabled, the
implemented pipeline applies the gate after the filter (the attenuated
sample falls below the gate threshold and is zeroed), while the order
stated by the specification (gate before the filter) keeps the sample
nonzero. -/
theorem process_audio_gate_order_spec_ne :
    process_audio [1] [1 / 100] [1] 1 true
      ≠ process_audio_spec_order [1] [1 / 100] [1] 1 true := by
  have hgate1 : |(10000 : ℚ) / 1000001| < 3 / 200 := by
    rw [abs_of_nonneg (by norm_num)]
    norm_num
  have hgate2 : ¬ |(1000000 : ℚ) / 1000001| < 3 / 200 := by
    rw [abs_of_nonneg (by norm_num)]
    norm_num
  have h1 : process_audio [1] [1 / 100] [1] 1 true = [0] := by
    norm_num [process_audio, normalize_audio, maxAbs, lfilter, lfilterPrefix,
      noise_gate, clipSample, Finset.sum_range_succ, hgate1, min_def, max_def]
  have h2 : process_audio_spec_order [1] [1 / 100] [1] 1 true = [10000 / 1000001] := by
    norm_num [process_audio_spec_order, normalize_audio, maxAbs, lfilter, lfilterPrefix,
      noise_gate, clipSample, Finset.sum_range_succ, hgate2, min_def, max_def]
  rw [h1, h2]
  intro h
  have := List.head_eq_of_cons_eq h
  norm_num at this

/-- C2 (amended): the implemented stage order of `process_audio` is
normalize, then the linear filter, then — when enabled — the noise gate,
then gain and hard clip; with the gate enabled the gate input is the
`lfilter` output, so the gate acts after the linear filter, never before
it. -/
theorem process_audio_stage_order (audio b a : List ℚ) (gain : ℚ) :
    process_audio audio b a gain true
        = (noise_gate (lfilter b a (normalize_audio audio)) (15 / 1000)).map
            (fun x => clipSample (x * gain))
      ∧ process_audio audio b a gain false
        = (lfilter b a (normalize_audio audio)).map
            (fun x => clipSample (x * gain)) := by
  constructor <;> rfl

/-- C6: per-block processing is total on degenerate numeric input: an
all-zero block is mapped to an all-zero block of the same length for
every gain, coefficients and gate setting; and with gain 0 every block is
mapped to an all-zero block of the input length. -/
theorem process_audio_degenerate_total :
    (∀ (n : ℕ) (b a : List ℚ) (gain : ℚ) (ug : Bool),
        process_audio (List.replicate n 0) b a gain ug = List.replicate n 0)
      ∧ (∀ (audio b a : List ℚ) (ug : Bool),
        process_audio audio b a 0 ug = List.replicate audio.length 0) := by
  constructor
  · intro n b a gain ug
    unfold process_audio
    rw [normalize_audio_replicate_zero]
    show ((if ug then noise_gate (lfilter b a (List.replicate n 0)) (15 / 1000)
        else lfilter b a (List.replicate n 0)).map fun x => clipSample (x * gain))
      = List.replicate n 0
    rw [lfilter, List.length_replicate, lfilterPrefix_replicate_zero]
    have hgate : noise_gate (List.replicate n (0 : ℚ)) (15 / 1000) = List.replicate n 0 := by
      simp [noise_gate, List.map_replicate]
    cases ug <;> simp [hgate, List.map_replicate, clipSample]
  · intro audio b a ug
    unfold process_audio
    have hlen : (if ug then noise_gate (lfilter b a (normalize_audio audio)) (15 / 1000)
        else lfilter b a (normalize_audio audio)).length = audio.length := by
      cases ug <;>
        simp [noise_gate, lfilter, lfilterPrefix_length, normalize_audio]
    rw [show (0 : ℚ) = 0 from rfl]
    rw [map_eq_replicate_zero _ _ (fun x => by simp [clipSample])]
    rw [hlen]

/-- C9: appending the blocks B1, B2, B3 to the recording accumulator in
that order and flushing yields exactly their concatenation B1 ++ B2 ++ B3,
of length `3 * L` when each block has length `L`. -/
theorem recording_flush_concat (B1 B2 B3 : List ℚ) (L : ℕ)
    (h1 : B1.length = L) (h2 : B2.length = L) (h3 : B3.length = L) :
    concatenateBlocks (recordAppend (recordAppend (recordAppend [] B1) B2) B3)
        = Except.ok (B1 ++ B2 ++ B3)
      ∧ (B1 ++ B2 ++ B3).length = 3 * L := by
  constructor
  · simp [recordAppend, concatenateBlocks]
  · simp [h1, h2, h3]
    ring

/-- Concrete check for C9 with three length-1 blocks. -/
theorem recording_flush_concat_check :
    concatenateBlocks (recordAppend (recordAppend (recordAppend [] [(1 : ℚ)]) [2]) [3])
        = Except.ok ([(1 : ℚ)] ++ [2] ++ [3])
      ∧ ([(1 : ℚ)] ++ [2] ++ [3]).length = 3 * 1 :=
  recording_flush_concat [1] [2] [3] 1 rfl rfl rfl

/-- C10: at the failing input — record flag set at stop time, but no
blocks ever appended — the stop path of `stream_thread` calls
`np.concatenate` on an empty list, which raises `ValueError` instead of
stopping cleanly without an artifact. -/
theorem stream_stop_empty_recording_error :
    stopFlush true [] = Except.error "need at least one array to concatenate" := rfl

/- ### Helper lemmas for filter design -/

theorem polyMulLin_length (r : ℂ) (p : List ℂ) :
    (polyMulLin r p).length = p.length + 1 := by
  simp [polyMulLin]

theorem polyFromRoots_go_length (roots : List ℂ) :
    ∀ p : List ℂ, (roots.foldl (fun q r => polyMulLin r q) p).length
      = p.length + roots.length := by
  induction roots with
  | nil => intro p; simp
  | cons r rs ih =>
    intro p
    simp only [List.foldl_cons, ih, polyMulLin_length, List.length_cons]
    omega

theorem polyFromRoots_length (roots : List ℂ) :
    (polyFromRoots roots).length = roots.length + 1 := by
  simp only [polyFromRoots, polyFromRoots_go_length, List.length_singleton]
  omega

theorem butterPoles_length (N : ℕ) : (butterPoles N).length = N := by
  simp [butterPoles]

theorem butterCoeffs_length (N : ℕ) (Wn : List ℚ) (fs : ℚ) (btype : String) :
    (butterCoeffs N Wn fs btype).1.length = (if btype = "band" then 2 * N + 1 else N + 1)
      ∧ (butterCoeffs N Wn fs btype).2.length
        = (if btype = "band" then 2 * N + 1 else N + 1) := by
  by_cases hb : btype = "band"
  · simp only [butterCoeffs, if_pos hb, if_pos (Eq.refl btype), hb]
    simp [polyFromRoots_length, butterPoles_length]
    omega
  · by_cases hh : btype = "high" <;>
      simp [butterCoeffs, hb, hh, polyFromRoots_length, butterPoles_length]

/- ### C5 and C8 -/

/-- C5: a filter-design request whose cutoff lies outside the open
interval `(0, fs/2)` fails with an error — on the FIR path and on the
IIR path of `design_filter`, and on `design_iir_filter` when any supplied
band edge is out of range — rather than clamping or returning
coefficients. -/
theorem design_rejects_cutoff_outside_nyquist :
    (∀ (ft : String) (cutoff fs : ℚ) (order : ℕ) (uf : Bool),
        (cutoff ≤ 0 ∨ fs / 2 ≤ cutoff) →
          ∃ msg, design_filter ft cutoff fs order uf = Except.error msg)
      ∧ (∀ (ft : String) (cutoff : List ℚ) (fs c : ℚ), c ∈ cutoff →
          (c ≤ 0 ∨ fs / 2 ≤ c) →
            ∃ msg, design_iir_filter ft cutoff fs = Except.error msg) := by
  have hbutter : ∀ (N : ℕ) (Wn : List ℚ) (fs : ℚ) (btype : String) (c : ℚ),
      c ∈ Wn → (c ≤ 0 ∨ fs / 2 ≤ c) →
        ∃ msg, butter N Wn fs btype = Except.error msg := by
    intro N Wn fs btype c hc hbad
    by_cases hbt : btype = "low" ∨ btype = "high" ∨ btype = "band"
    · refine ⟨"Digital filter critical frequencies must be 0 < Wn < fs/2", ?_⟩
      have hall : ¬ (∀ w ∈ Wn, 0 < w ∧ w < fs / 2) := by
        intro hall
        obtain ⟨h1, h2⟩ := hall c hc
        rcases hbad with hbad | hbad <;> linarith
      simp [butter, hbt, hall]
    · exact ⟨"btype must be one of lowpass, highpass, bandpass", by simp [butter, hbt]⟩
  constructor
  · intro ft cutoff fs order uf hbad
    cases uf
    · obtain ⟨msg, hmsg⟩ := hbutter 6 [cutoff] fs ft cutoff (by simp) hbad
      exact ⟨msg, by simp [design_filter, hmsg]⟩
    · refine ⟨"Invalid cutoff frequency", ?_⟩
      simp [design_filter, firwin, hbad]
  · intro ft cutoff fs c hc hbad
    obtain ⟨msg, hmsg⟩ := hbutter 6 cutoff fs ft c hc hbad
    exact ⟨msg, by simp [design_iir_filter, hmsg]⟩

/-- Concrete check for C5: the Nyquist scenario — a low-pass design with
cutoff 30000 Hz at sample rate 44100 Hz fails (22050 = Nyquist < 30000). -/
theorem design_rejects_cutoff_outside_nyquist_check :
    ∃ msg, design_filter "low" 30000 44100 101 true = Except.error msg :=
  design_rejects_cutoff_outside_nyquist.1 "low" 30000 44100 101 true
    (Or.inr (by norm_num))

/-- C8: a successful FIR design returns exactly `order` taps and no
denominator; the IIR path of `design_filter` forwards to `butter` with
the fixed order `N = 6`, independent of the configured FIR `order`
parameter; a successful `butter` design of order `N` has numerator and
denominator of the fixed size `N + 1` (low/high-pass) or `2 N + 1`
(band-pass); and `design_iir_filter` is exactly `butter` at order 6. -/
theorem design_filter_output_shape :
    (∀ (ft : String) (cutoff fs : ℚ) (order : ℕ) (taps : List ℝ) (r : Option (List ℝ)),
        design_filter ft cutoff fs order true = Except.ok (taps, r) →
          taps.length = order ∧ r = none)
      ∧ (∀ (ft : String) (cutoff fs : ℚ) (order : ℕ),
          design_filter ft cutoff fs order false
            = (butter 6 [cutoff] fs ft).map (fun ba => (ba.1, some ba.2)))
      ∧ (∀ (N : ℕ) (Wn : List ℚ) (fs : ℚ) (btype : String) (num den : List ℝ),
          butter N Wn fs btype = Except.ok (num, den) →
            num.length = (if btype = "band" then 2 * N + 1 else N + 1)
              ∧ den.length = (if btype = "band" then 2 * N + 1 else N + 1))
      ∧ (∀ (ft : String) (cutoff : List ℚ) (fs : ℚ),
          design_iir_filter ft cutoff fs = butter 6 cutoff fs ft) := by
  refine ⟨?_, ?_, ?_, fun ft cutoff fs => rfl⟩
  · intro ft cutoff fs order taps r h
    simp only [design_filter, if_pos rfl] at h
    cases hf : firwin order cutoff fs (ft == "low") with
    | error e => rw [hf] at h; cases h
    | ok taps0 =>
      rw [hf] at h
      cases h
      unfold firwin at hf
      split at hf
      · cases hf
      · split at hf
        · cases hf
        · cases hf
          simp [firwinTaps]
  · intro ft cutoff fs order
    cases hb : butter 6 [cutoff] fs ft <;> simp [design_filter, hb, Except.map]
  · intro N Wn fs btype num den h
    unfold butter at h
    split at h
    · cases h
    · split at h
      · cases h
      · split at h
        · cases h
        · split at h
          · cases h
          · injection h with h2
            have hnum := congrArg Prod.fst h2
            have hden := congrArg Prod.snd h2
            simp only at hnum hden
            rw [← hnum, ← hden]
            exact butterCoeffs_length N Wn fs btype

/-- Concrete check for C8: a successful low-pass FIR design at order 101
returns 101 taps and no denominator, and the IIR path of `design_filter`
gives the same result for two different configured orders. -/
theorem design_filter_output_shape_check :
    ((firwinTaps 101 4000 44100 true).length = 101 ∧ (none : Option (List ℝ)) = none)
      ∧ design_filter "low" 4000 44100 5 false = design_filter "low" 4000 44100 999 false := by
  constructor
  · refine design_filter_output_shape.1 "low" 4000 44100 101
      (firwinTaps 101 4000 44100 true) none ?_
    have h : ¬ ((4000 : ℚ) ≤ 0 ∨ (44100 : ℚ) / 2 ≤ 4000) := by norm_num
    simp [design_filter, firwin, h]
  · rw [design_filter_output_shape.2.1 "low" 4000 44100 5,
      design_filter_output_shape.2.1 "low" 4000 44100 999]


/- ### Discrete Fourier analysis for the spectral model -/

theorem unitExp_add (N : ℕ) (d e : ℤ) :
    unitExp N (d + e) = unitExp N d * unitExp N e := by
  rw [unitExp, unitExp, unitExp, ← Complex.exp_add]
  congr 1
  push_cast
  ring

theorem unitExp_zero (N : ℕ) : unitExp N 0 = 1 := by
  simp [unitExp]

theorem unitExp_mul_left (N : ℕ) (hN : 0 < N) (m : ℤ) :
    unitExp N ((N : ℤ) * m) = 1 := by
  have hNC : (N : ℂ) ≠ 0 := Nat.cast_ne_zero.mpr hN.ne'
  rw [unitExp]
  have h : 2 * (Real.pi : ℂ) * Complex.I * (((N : ℤ) * m : ℤ) : ℂ) / (N : ℂ)
      = (m : ℂ) * (2 * (Real.pi : ℂ) * Complex.I) := by
    push_cast
    field_simp
    ring
  rw [h, Complex.exp_int_mul_two_pi_mul_I]

theorem unitExp_pow (N : ℕ) (d : ℤ) (k : ℕ) :
    unitExp N d ^ k = unitExp N (d * k) := by
  rw [unitExp, unitExp, ← Complex.exp_nat_mul]
  congr 1
  push_cast
  ring

theorem unitExp_conj (N : ℕ) (d : ℤ) :
    starRingEnd ℂ (unitExp N d) = unitExp N (-d) := by
  rw [unitExp, unitExp, ← Complex.exp_conj]
  congr 1
  simp only [map_div₀, map_mul, Complex.conj_I, map_ofNat, Complex.conj_ofReal,
    map_intCast, map_natCast]
  push_cast
  ring

theorem unitExp_orthogonal (N : ℕ) (hN : 0 < N) (d : ℤ) :
    ∑ k ∈ Finset.range N, unitExp N (d * k) = if (N : ℤ) ∣ d then (N : ℂ) else 0 := by
  have hrw : ∀ k ∈ Finset.range N, unitExp N (d * k) = unitExp N d ^ k := by
    intro k _
    rw [unitExp_pow]
  rw [Finset.sum_congr rfl hrw]
  by_cases hdvd : (N : ℤ) ∣ d
  · obtain ⟨m, rfl⟩ := hdvd
    rw [if_pos ⟨m, rfl⟩, unitExp_mul_left N hN m]
    simp
  · rw [if_neg hdvd]
    have hne : unitExp N d ≠ 1 := by
      intro h1
      rw [unitExp, Complex.exp_eq_one_iff] at h1
      obtain ⟨m, hm⟩ := h1
      have hNC : (N : ℂ) ≠ 0 := Nat.cast_ne_zero.mpr hN.ne'
      have h3 : (2 * (Real.pi : ℂ) * Complex.I) * (d : ℂ)
          = (2 * (Real.pi : ℂ) * Complex.I) * ((m : ℂ) * (N : ℂ)) := by
        field_simp at hm
        linear_combination hm
      have h4 := mul_left_cancel₀ Complex.two_pi_I_ne_zero h3
      have h5 : d = m * (N : ℤ) := by exact_mod_cast h4
      refine hdvd ⟨m, ?_⟩
      rw [h5]
      ring
    rw [geom_sum_eq hne, unitExp_pow, mul_comm d (N : ℤ), unitExp_mul_left N hN d]
    simp

theorem int_dvd_sub_iff (N j l : ℕ) (hj : j < N) (hl : l < N) :
    ((N : ℤ) ∣ ((j : ℤ) - (l : ℤ))) ↔ l = j := by
  constructor
  · rintro ⟨t, ht⟩
    have hj' : (j : ℤ) < (N : ℤ) := by exact_mod_cast hj
    have hl' : (l : ℤ) < (N : ℤ) := by exact_mod_cast hl
    have hj0 : (0 : ℤ) ≤ (j : ℤ) := Int.ofNat_nonneg j
    have hl0 : (0 : ℤ) ≤ (l : ℤ) := Int.ofNat_nonneg l
    have hN0 : (0 : ℤ) ≤ (N : ℤ) := Int.ofNat_nonneg N
    rcases lt_trichotomy t 0 with h | h | h
    · have h1 : t ≤ -1 := by omega
      have h2 : (N : ℤ) * t ≤ (N : ℤ) * (-1) := mul_le_mul_of_nonneg_left h1 hN0
      have h3 : (N : ℤ) * (-1) = -(N : ℤ) := by ring
      have : False := by linarith [ht, h2]
      exact absurd this (by simp)
    · subst h
      simp only [mul_zero] at ht
      omega
    · have h1 : (1 : ℤ) ≤ t := h
      have h2 : (N : ℤ) * 1 ≤ (N : ℤ) * t := mul_le_mul_of_nonneg_left h1 hN0
      have h3 : (N : ℤ) * 1 = (N : ℤ) := by ring
      have : False := by linarith [ht, h2]
      exact absurd this (by simp)
  · rintro rfl
    simp

theorem dft_inversion (x : List ℝ) (j : ℕ) (hj : j < x.length) :
    ∑ k ∈ Finset.range x.length, rfftCoeff x k * unitExp x.length ((k : ℤ) * (j : ℤ))
      = (x.length : ℂ) * ((x.getD j 0 : ℝ) : ℂ) := by
  have hN : 0 < x.length := lt_of_le_of_lt (Nat.zero_le j) hj
  calc
    ∑ k ∈ Finset.range x.length, rfftCoeff x k * unitExp x.length ((k : ℤ) * (j : ℤ))
        = ∑ k ∈ Finset.range x.length, ∑ l ∈ Finset.range x.length,
            ((x.getD l 0 : ℝ) : ℂ) * (unitExp x.length (-((l : ℤ) * (k : ℤ)))
              * unitExp x.length ((k : ℤ) * (j : ℤ))) := by
        refine Finset.sum_congr rfl fun k _ => ?_
        rw [rfftCoeff, Finset.sum_mul]
        refine Finset.sum_congr rfl fun l _ => ?_
        ring
    _ = ∑ l ∈ Finset.range x.length, ∑ k ∈ Finset.range x.length,
            ((x.getD l 0 : ℝ) : ℂ) * (unitExp x.length (-((l : ℤ) * (k : ℤ)))
              * unitExp x.length ((k : ℤ) * (j : ℤ))) := Finset.sum_comm
    _ = ∑ l ∈ Finset.range x.length, ((x.getD l 0 : ℝ) : ℂ)
          * ∑ k ∈ Finset.range x.length,
              unitExp x.length (((j : ℤ) - (l : ℤ)) * (k : ℤ)) := by
        refine Finset.sum_congr rfl fun l _ => ?_
        rw [Finset.mul_sum]
        refine Finset.sum_congr rfl fun k _ => ?_
        rw [← unitExp_add]
        congr 1
        ring_nf
    _ = ∑ l ∈ Finset.range x.length, ((x.getD l 0 : ℝ) : ℂ)
          * (if (x.length : ℤ) ∣ ((j : ℤ) - (l : ℤ)) then ((x.length : ℕ) : ℂ) else 0) := by
        refine Finset.sum_congr rfl fun l _ => ?_
        rw [unitExp_orthogonal x.length hN]
    _ = ∑ l ∈ Finset.range x.length,
          (if l = j then ((x.getD l 0 : ℝ) : ℂ) * ((x.length : ℕ) : ℂ) else 0) := by
        refine Finset.sum_congr rfl fun l hl => ?_
        simp only [int_dvd_sub_iff x.length j l hj (Finset.mem_range.mp hl)]
        rw [mul_ite, mul_zero]
    _ = ((x.getD j 0 : ℝ) : ℂ) * ((x.length : ℕ) : ℂ) := by
        rw [Finset.sum_ite_eq' (Finset.range x.length) j
          (fun l => ((x.getD l 0 : ℝ) : ℂ) * ((x.length : ℕ) : ℂ))]
        rw [if_pos (Finset.mem_range.mpr hj)]
    _ = (x.length : ℂ) * ((x.getD j 0 : ℝ) : ℂ) := mul_comm _ _

theorem rfftCoeff_conj (x : List ℝ) (k : ℕ) (hk : k ≤ x.length) (hN : 0 < x.length) :
    rfftCoeff x (x.length - k) = starRingEnd ℂ (rfftCoeff x k) := by
  rw [rfftCoeff, rfftCoeff, map_sum]
  refine Finset.sum_congr rfl fun l _ => ?_
  rw [map_mul, Complex.conj_ofReal, unitExp_conj]
  congr 1
  have hcast : ((x.length - k : ℕ) : ℤ) = (x.length : ℤ) - (k : ℤ) := by omega
  have h1 : -((l : ℤ) * ((x.length - k : ℕ) : ℤ))
      = (x.length : ℤ) * (-(l : ℤ)) + -(-((l : ℤ) * (k : ℤ))) := by
    rw [hcast]
    ring
  rw [h1, unitExp_add, unitExp_mul_left x.length hN, one_mul]

theorem sum_split_conj (M : ℕ) (hM : 0 < M) (g : ℕ → ℂ)
    (hsym : ∀ k ∈ Finset.Ico 1 M, g (2 * M - k) = starRingEnd ℂ (g k)) :
    ∑ k ∈ Finset.range (2 * M), g k
      = g 0 + g M + ∑ k ∈ Finset.Ico 1 M, ((2 * (g k).re : ℝ) : ℂ) := by
  have h1 : ∑ k ∈ Finset.range (2 * M), g k
      = g 0 + ((∑ k ∈ Finset.Ico 1 M, g k)
        + (g M + ∑ k ∈ Finset.Ico (M + 1) (2 * M), g k)) := by
    rw [Finset.range_eq_Ico, Finset.sum_eq_sum_Ico_succ_bot (by omega) g]
    congr 1
    rw [← Finset.sum_Ico_consecutive g (by omega : 1 ≤ M) (by omega : M ≤ 2 * M)]
    congr 1
    rw [Finset.sum_eq_sum_Ico_succ_bot (by omega) g]
  have h2 : ∑ k ∈ Finset.Ico (M + 1) (2 * M), g k
      = ∑ k ∈ Finset.Ico 1 M, starRingEnd ℂ (g k) := by
    rw [Finset.sum_Ico_eq_sum_range g (M + 1) (2 * M),
      Finset.sum_Ico_eq_sum_range (fun k => starRingEnd ℂ (g k)) 1 M]
    have hc1 : 2 * M - (M + 1) = M - 1 := by omega
    rw [hc1, ← Finset.sum_range_reflect (fun i => starRingEnd ℂ (g (1 + i))) (M - 1)]
    refine Finset.sum_congr rfl fun i hi => ?_
    have hiM : i < M - 1 := Finset.mem_range.mp hi
    show g (M + 1 + i) = starRingEnd ℂ (g (1 + (M - 1 - 1 - i)))
    have e1 : 1 + (M - 1 - 1 - i) = M - 1 - i := by omega
    have e2 : M + 1 + i = 2 * M - (M - 1 - i) := by omega
    rw [e1, e2]
    exact hsym (M - 1 - i) (Finset.mem_Ico.mpr ⟨by omega, by omega⟩)
  have h3 : (∑ k ∈ Finset.Ico 1 M, g k) + ∑ k ∈ Finset.Ico 1 M, starRingEnd ℂ (g k)
      = ∑ k ∈ Finset.Ico 1 M, ((2 * (g k).re : ℝ) : ℂ) := by
    rw [← Finset.sum_add_distrib]
    exact Finset.sum_congr rfl fun k _ => Complex.add_conj (g k)
  rw [h1, h2, ← h3]
  ring

theorem rfft_inversion_core (x : List ℝ) (M j : ℕ) (hM : 0 < M) (hx : x.length = 2 * M)
    (hj : j < 2 * M) :
    ((rfftCoeff x 0).re + (-1 : ℝ) ^ j * (rfftCoeff x M).re
        + ∑ k ∈ Finset.Ico 1 M,
            2 * (rfftCoeff x k * unitExp (2 * M) ((k : ℤ) * (j : ℤ))).re)
      / ((2 * M : ℕ) : ℝ) = x.getD j 0 := by
  have hinv := dft_inversion x j (by omega)
  simp only [hx] at hinv
  have hsym : ∀ k ∈ Finset.Ico 1 M,
      (fun k : ℕ => rfftCoeff x k * unitExp (2 * M) ((k : ℤ) * (j : ℤ))) (2 * M - k)
        = starRingEnd ℂ
            ((fun k : ℕ => rfftCoeff x k * unitExp (2 * M) ((k : ℤ) * (j : ℤ))) k) := by
    intro k hk
    obtain ⟨hk1, hk2⟩ := Finset.mem_Ico.mp hk
    simp only
    have hXc : rfftCoeff x (2 * M - k) = starRingEnd ℂ (rfftCoeff x k) := by
      have h := rfftCoeff_conj x k (by omega) (by omega)
      rw [hx] at h
      exact h
    have hEc : unitExp (2 * M) (((2 * M - k : ℕ) : ℤ) * (j : ℤ))
        = starRingEnd ℂ (unitExp (2 * M) ((k : ℤ) * (j : ℤ))) := by
      rw [unitExp_conj]
      have hcast : ((2 * M - k : ℕ) : ℤ) = 2 * (M : ℤ) - (k : ℤ) := by omega
      have h1 : ((2 * M - k : ℕ) : ℤ) * (j : ℤ)
          = ((2 * M : ℕ) : ℤ) * (j : ℤ) + -((k : ℤ) * (j : ℤ)) := by
        rw [hcast]
        push_cast
        ring
      rw [h1, unitExp_add, unitExp_mul_left (2 * M) (by omega), one_mul]
    rw [hXc, hEc, map_mul]
  have hsplit := sum_split_conj M hM
    (fun k : ℕ => rfftCoeff x k * unitExp (2 * M) ((k : ℤ) * (j : ℤ))) hsym
  rw [hsplit] at hinv
  simp only [Nat.cast_zero, zero_mul, unitExp_zero, mul_one] at hinv
  have hEM : unitExp (2 * M) ((M : ℤ) * (j : ℤ)) = (-1 : ℂ) ^ j := by
    rw [← unitExp_pow]
    congr 1
    rw [unitExp]
    have hMC : ((M : ℕ) : ℂ) ≠ 0 := Nat.cast_ne_zero.mpr hM.ne'
    have h2 : 2 * (Real.pi : ℂ) * Complex.I * (((M : ℤ) : ℤ) : ℂ) / (((2 * M : ℕ) : ℕ) : ℂ)
        = (Real.pi : ℂ) * Complex.I := by
      push_cast
      field_simp
      ring
    rw [h2, Complex.exp_pi_mul_I]
  rw [hEM] at hinv
  have hc : ((-1 : ℂ)) ^ j = (((-1 : ℝ) ^ j : ℝ) : ℂ) := by
    push_cast
    ring
  rw [hc] at hinv
  have hBre : (rfftCoeff x M * (((-1 : ℝ) ^ j : ℝ) : ℂ)).re
      = (-1 : ℝ) ^ j * (rfftCoeff x M).re := by
    simp only [Complex.mul_re, Complex.ofReal_re, Complex.ofReal_im, mul_zero, sub_zero]
    ring
  have hRre : (((2 * M : ℕ) : ℂ) * ((x.getD j 0 : ℝ) : ℂ)).re
      = ((2 * M : ℕ) : ℝ) * x.getD j 0 := by
    simp only [Complex.mul_re, Complex.natCast_re, Complex.natCast_im,
      Complex.ofReal_re, Complex.ofReal_im, zero_mul, mul_zero, sub_zero]
  have hre := congrArg Complex.re hinv
  simp only [Complex.add_re, Complex.re_sum, Complex.ofReal_re] at hre
  rw [hBre, hRre] at hre
  have hne : ((2 * M : ℕ) : ℝ) ≠ 0 := Nat.cast_ne_zero.mpr (by omega)
  rw [div_eq_iff hne]
  linarith [hre]

theorem getD_map_range {α : Type _} (f : ℕ → α) (n k : ℕ) (d : α) (h : k < n) :
    ((List.range n).map f).getD k d = f k := by
  rw [List.getD_eq_getElem _ _ (by simpa using h)]
  simp

theorem rfft_length (x : List ℝ) : (rfft x).length = x.length / 2 + 1 := by
  simp [rfft]

theorem rfft_getD (x : List ℝ) (k : ℕ) (hk : k < x.length / 2 + 1) :
    (rfft x).getD k 0 = rfftCoeff x k := by
  rw [rfft]
  exact getD_map_range _ _ _ _ hk

theorem irfft_rfft (x : List ℝ) (hpos : 0 < x.length) (heven : Even x.length) :
    irfft (rfft x) = x := by
  obtain ⟨M, hMM⟩ := heven
  have hx : x.length = 2 * M := by omega
  have hM : 0 < M := by omega
  refine List.ext_getElem ?_ fun j h1 h2 => ?_
  · simp only [irfft, List.length_map, List.length_range, rfft_length, hx]
    omega
  · simp only [irfft, List.getElem_map, List.getElem_range, rfft_length, hx,
      Nat.add_sub_cancel]
    have hdiv : 2 * M / 2 = M := by omega
    rw [hdiv]
    rw [rfft_getD x 0 (by omega), rfft_getD x M (by omega)]
    have hsum : ∑ k ∈ Finset.Ico 1 M, 2 * ((rfft x).getD k 0
          * unitExp (2 * M) ((k : ℤ) * (j : ℤ))).re
        = ∑ k ∈ Finset.Ico 1 M, 2 * (rfftCoeff x k
          * unitExp (2 * M) ((k : ℤ) * (j : ℤ))).re := by
      refine Finset.sum_congr rfl fun k hk => ?_
      obtain ⟨hk1, hk2⟩ := Finset.mem_Ico.mp hk
      rw [rfft_getD x k (by omega)]
    rw [hsum]
    have hcore := rfft_inversion_core x M j hM hx (by omega)
    rw [List.getD_eq_getElem x 0 h2] at hcore
    exact hcore

theorem zipWith_map_same {α β γ δ : Type _} (f : β → γ → δ) (g : α → β) (h : α → γ) :
    ∀ l : List α, List.zipWith f (l.map g) (l.map h) = l.map (fun a => f (g a) (h a))
  | [] => rfl
  | a :: l => by
    simp only [List.map_cons, List.zipWith_cons_cons, zipWith_map_same f g h l]

theorem rfftCoeff_replicate_zero (n k : ℕ) :
    rfftCoeff (List.replicate n (0 : ℝ)) k = 0 := by
  rw [rfftCoeff]
  refine Finset.sum_eq_zero fun l _ => ?_
  rw [getD_replicate]
  simp

theorem rfft_replicate_zero (n : ℕ) :
    rfft (List.replicate n (0 : ℝ))
      = (List.range (n / 2 + 1)).map (fun _ : ℕ => (0 : ℂ)) := by
  rw [rfft, List.length_replicate]
  exact List.map_congr_left fun k _ => rfftCoeff_replicate_zero n k

/- ### C4 and C7 -/

/-- C4 counterexample: on the odd common length 3, spectral subtraction
returns a block of length 2, not of the input length (the forward
transform gives `3 / 2 + 1 = 2` bins and irfft at its default output
length maps them back to `2 * (2 - 1) = 2` samples). -/
theorem spectral_subtraction_odd_length_shrinks :
    (spectral_subtraction [(1 : ℝ), 2, 3] [4, 5, 6]).length
      ≠ [(1 : ℝ), 2, 3].length := by
  simp [spectral_subtraction, irfft, rfft]

/-- C4 (amended): for equal-length inputs of even positive length, the
spectral-subtraction output length equals the input length. -/
theorem spectral_subtraction_length_even (audio noise : List ℝ)
    (hlen : noise.length = audio.length) (hpos : 0 < audio.length)
    (heven : Even audio.length) :
    (spectral_subtraction audio noise).length = audio.length := by
  obtain ⟨M, hMM⟩ := heven
  simp only [spectral_subtraction, irfft, rfft, List.length_map, List.length_range,
    List.length_zipWith, hlen, min_self]
  omega

/-- Concrete check for C4 at the even length 4. -/
theorem spectral_subtraction_length_even_check :
    (spectral_subtraction [1, 2, 3, 4] [5, 6, 7, 8]).length = [(1 : ℝ), 2, 3, 4].length :=
  spectral_subtraction_length_even [1, 2, 3, 4] [5, 6, 7, 8] rfl (by decide) (by decide)

/-- C7 counterexample: on the odd-length block `[1, 0, 0]`, spectral
subtraction with the all-zero noise profile returns a block of length 2,
so it is not the identity there. -/
theorem spectral_subtraction_zero_noise_odd_ne :
    spectral_subtraction [1, 0, 0] [0, 0, 0] ≠ [1, 0, 0] := by
  intro h
  have hlen := congrArg List.length h
  simp [spectral_subtraction, irfft, rfft] at hlen

/-- C7 (amended): for every block of even positive length, spectral
subtraction with the all-zero noise profile of the same length returns
the original block exactly: the floored magnitude recombined with the
original phase reconstructs the spectrum, and the inverse transform
inverts the forward transform at even lengths. -/
theorem spectral_subtraction_zero_noise_id (x : List ℝ) (hpos : 0 < x.length)
    (heven : Even x.length) :
    spectral_subtraction x (List.replicate x.length 0) = x := by
  have harg : List.zipWith
      (fun m p => ((m : ℝ) : ℂ) * Complex.exp (Complex.I * ((p : ℝ) : ℂ)))
      (List.zipWith (fun m w => max (m - Complex.abs w) 0)
        ((rfft x).map (fun z => Complex.abs z))
        (rfft (List.replicate x.length 0)))
      ((rfft x).map (fun z => Complex.arg z)) = rfft x := by
    rw [rfft_replicate_zero]
    rw [show rfft x = (List.range (x.length / 2 + 1)).map (rfftCoeff x) from rfl]
    rw [List.map_map, List.map_map]
    rw [zipWith_map_same, zipWith_map_same]
    refine List.map_congr_left fun k _ => ?_
    simp only [Function.comp]
    rw [map_zero, sub_zero, max_eq_left (Complex.abs.nonneg _)]
    rw [mul_comm Complex.I _]
    exact Complex.abs_mul_exp_arg_mul_I _
  simp only [spectral_subtraction]
  rw [harg]
  exact irfft_rfft x hpos heven

/-- Concrete check for C7 at the even-length block `[1, 2]`. -/
theorem spectral_subtraction_zero_noise_id_check :
    spectral_subtraction [(1 : ℝ), 2] (List.replicate [(1 : ℝ), 2].length 0)
      = [(1 : ℝ), 2] :=
  spectral_subtraction_zero_noise_id [1, 2] (by decide) (by decide)
